import Mathlib

/-!
Shallow embedding of the multi-backend file-storage router of
`pkg/infra/filestorage/filestorage.go`.

Modelling choices:
* Go strings are modelled as lists of characters (`GoStr`); Go's
  `strings.Split` / `strings.Join` / `strings.TrimPrefix` /
  `strings.HasPrefix` become `List.splitOn` / `List.intercalate` /
  ` trimPrefix` / `List.isPrefixOf`.
* The Go map `backendByName` is modelled as an association list; the list
  order models one iteration order of the map.  Go does not fix a map
  iteration order, so statements about "the registry" are quantified over
  association lists, and statements about several runs compare several
  orders of the same registry.
* Functions returning a Go `error` return `Option Err` (`none` = nil).
* `ctx` parameters carry no information inside the router and are dropped.
* Each router operation additionally returns the list of backend
  invocations it performed (which backend, by mount name, received which
  arguments), so that delegation and short-circuiting are observable.
-/

abbrev GoStr := List Char

def gs (s : String) : GoStr := s.toList

/-- Errors crossing the router boundary: `invalidPath` is produced by the
router itself; every backend-native error is modelled as a payload. -/
inductive Err where
  | invalidPath
  | backendErr (msg : GoStr)
  deriving DecidableEq, Repr

/-- Modelled from the spec: the `File` type (metadata plus contents) is
defined outside the provided sources.  Only `FullPath` is ever touched by
the router; all remaining fields are modelled as one payload field. -/
structure File where
  fullPath : GoStr
  contents : GoStr
  deriving DecidableEq, Repr

/-- Modelled from the spec: `FileMetadata` is defined outside the provided
sources; only `FullPath` is touched by the router. -/
structure FileMetadata where
  fullPath : GoStr
  name : GoStr
  deriving DecidableEq, Repr

/-- Modelled from the spec: the `UpsertFileCommand` is defined outside the
provided sources; the router reads and rewrites its `Path` field, the other
fields are modelled as one payload field. -/
structure UpsertFileCommand where
  path : GoStr
  contents : GoStr
  deriving DecidableEq, Repr

/-- Modelled from the spec: the pagination cursor is backend-owned data the
router never interprets. -/
abbrev Paging := GoStr

/-- Modelled from the spec: listing options are backend-owned data the
router never interprets. -/
abbrev ListOptions := GoStr

/-- Modelled from the spec: `ListFilesResponse` is defined outside the
provided sources.  `files` is the slice of returned files (`none` models a
nil Go slice); `pagingData` models the backend-owned pagination state that
the router must hand back verbatim. -/
structure ListFilesResponse where
  files : Option (List File)
  pagingData : GoStr
  deriving DecidableEq, Repr

/-- Modelled from the spec: `Delimiter` is the path separator of the
unified namespace; paths look like `/mount-name/sub/dir/file.ext` and the
root path is exactly the delimiter. -/
def Delimiter : GoStr := ['/']

/-- Go's `strings.TrimPrefix`. -/
def trimPrefix (s pre : GoStr) : GoStr :=
  if pre.isPrefixOf s then s.drop pre.length else s

/-- Modelled from the spec: `Join` is defined outside the provided sources.
Spec §4.1: `Join(mountName, relativePath)` produces the unified path
`/<mountName><relativePath-with-its-own-leading-delimiter-removed-as-needed>`;
the result always starts with the delimiter.  The leading delimiter of the
relative path needs removing exactly when plain concatenation would double
the delimiter. -/
def Join (mountName relativePath : GoStr) : GoStr :=
  let base := Delimiter ++ mountName
  if Delimiter.isSuffixOf base && Delimiter.isPrefixOf relativePath then
    base ++ relativePath.drop 1
  else
    base ++ relativePath

/-- Modelled from the spec: `validatePath` is defined outside the provided
sources.  Spec §4.1: it fails with `InvalidPath` when the path contains a
`..` traversal segment, a null/control character, or is empty; the root
path and any absolute path are valid. -/
def validatePath (path : GoStr) : Option Err :=
  if path = [] then some .invalidPath
  else if ['.', '.'] ∈ path.splitOn '/' then some .invalidPath
  else if path.any (fun c => c.toNat < 32) then some .invalidPath
  else none

/-- A path contains a `..` traversal segment. -/
abbrev hasDotDotSegment (path : GoStr) : Prop := ['.', '.'] ∈ path.splitOn '/'

/-- `removeBackendNamePrefix` from the source: trim one leading delimiter,
normalize the degenerate cases to the bare delimiter, and otherwise replace
the first segment (the mount name) by the empty string before re-joining. -/
def removeBackendNamePrefix (path : GoStr) : GoStr :=
  let p := trimPrefix path Delimiter
  if p = Delimiter ∨ p = [] then Delimiter
  else if '/' ∉ p then Delimiter
  else
    let split := p.splitOn '/'
    if split.length = 2 ∧ split.getD 1 [] = [] then Delimiter
    else List.intercalate Delimiter ([] :: split.tail)

/-- The per-entry match test of the `getBackend` loop:
`strings.HasPrefix(path, Delimiter+backendName) || backendName == path`. -/
def mountMatches (backendName path : GoStr) : Bool :=
  (Delimiter ++ backendName).isPrefixOf path || backendName == path

/-- The `(FileStorage, string, string)` success value of `getBackend`. -/
structure Resolved (β : Type) where
  backend : β
  backendSpecificPath : GoStr
  backendName : GoStr
  deriving DecidableEq

/-- `service.getBackend` from the source, polymorphic in the backend type
(the resolver never looks inside a backend).  The association list models
one iteration order of the Go map: the first entry whose mount name matches
wins; on a match the stripped path is validated, otherwise the original
path is validated and the dummy backend is returned with mount name `""`
(this is not an error). -/
def getBackend {β : Type} (dummyBackend : β) (backendByName : List (GoStr × β))
    (path : GoStr) : Except Err (Resolved β) :=
  match backendByName.find? (fun e => mountMatches e.1 path) with
  | some (backendName, backend) =>
    let backendSpecificPath := removeBackendNamePrefix path
    match validatePath backendSpecificPath with
    | some err => .error err
    | none => .ok ⟨backend, backendSpecificPath, backendName⟩
  | none =>
    match validatePath path with
    | some err => .error err
    | none => .ok ⟨dummyBackend, path, []⟩

/-- The `FileStorage` interface as consumed by the router (declared outside
the provided sources); each operation is a pure function, `ctx` is dropped,
and Go's `(T, error)` multi-returns are pairs with `Option Err`. -/
structure Backend where
  get : GoStr → Option File × Option Err
  delete : GoStr → Option Err
  upsert : UpsertFileCommand → Option Err
  listFiles : GoStr → Option Paging → ListOptions → Option ListFilesResponse × Option Err
  listFolders : GoStr → ListOptions → Option (List FileMetadata) × Option Err
  createFolder : GoStr → Option Err
  deleteFolder : GoStr → Option Err
  close : Option Err

/-- One observed backend invocation: which mount's backend was called and
with which arguments. -/
inductive BackendCall where
  | get (mount localPath : GoStr)
  | delete (mount localPath : GoStr)
  | upsert (mount : GoStr) (cmd : UpsertFileCommand)
  | listFiles (mount localPath : GoStr) (cursor : Option Paging) (options : ListOptions)
  | listFolders (mount localPath : GoStr) (options : ListOptions)
  | createFolder (mount localPath : GoStr)
  | deleteFolder (mount localPath : GoStr)
  deriving DecidableEq, Repr

/-- The mount name of an observed backend invocation. -/
def BackendCall.mount : BackendCall → GoStr
  | .get m _ => m
  | .delete m _ => m
  | .upsert m _ => m
  | .listFiles m _ _ _ => m
  | .listFolders m _ _ => m
  | .createFolder m _ => m
  | .deleteFolder m _ => m

/-- The backend-local path an observed backend invocation received (for an
upsert call, the `Path` field of the command the backend received). -/
def BackendCall.localPath : BackendCall → GoStr
  | .get _ p => p
  | .delete _ p => p
  | .upsert _ c => c.path
  | .listFiles _ p _ _ => p
  | .listFolders _ p _ => p
  | .createFolder _ p => p
  | .deleteFolder _ p => p

/-- The `service` struct from the source (the logger is dropped: logging is
unobservable in this embedding). -/
structure service where
  dummyBackend : Backend
  backendByName : List (GoStr × Backend)

/-- `service.Get`: resolve, delegate, rewrite `FullPath` of a non-nil file
back into the unified namespace.  The second component is the invocation
trace. -/
def service.Get (b : service) (path : GoStr) :
    (Option File × Option Err) × List BackendCall :=
  match getBackend b.dummyBackend b.backendByName path with
  | .error err => ((none, some err), [])
  | .ok r =>
    let res := r.backend.get r.backendSpecificPath
    ((res.1.map fun f => { f with fullPath := Join r.backendName f.fullPath }, res.2),
      [.get r.backendName r.backendSpecificPath])

/-- `service.Delete`: resolve and delegate; backend error passed through. -/
def service.Delete (b : service) (path : GoStr) :
    Option Err × List BackendCall :=
  match getBackend b.dummyBackend b.backendByName path with
  | .error err => (some err, [])
  | .ok r => (r.backend.delete r.backendSpecificPath,
      [.delete r.backendName r.backendSpecificPath])

/-- `service.Upsert`: resolve on `file.Path`, overwrite the command's `Path`
field with the backend-local path, delegate.  The middle component is the
caller-visible final state of the (in Go, in-place mutated) command. -/
def service.Upsert (b : service) (file : UpsertFileCommand) :
    Option Err × UpsertFileCommand × List BackendCall :=
  match getBackend b.dummyBackend b.backendByName file.path with
  | .error err => (some err, file, [])
  | .ok r =>
    let file2 := { file with path := r.backendSpecificPath }
    (r.backend.upsert file2, file2, [.upsert r.backendName file2])

/-- `service.ListFiles`: resolve, delegate (cursor and options passed
through untouched), rewrite `FullPath` of every returned file when the
response and its file slice are non-nil. -/
def service.ListFiles (b : service) (path : GoStr) (cursor : Option Paging)
    (options : ListOptions) :
    (Option ListFilesResponse × Option Err) × List BackendCall :=
  match getBackend b.dummyBackend b.backendByName path with
  | .error err => ((none, some err), [])
  | .ok r =>
    let res := r.backend.listFiles r.backendSpecificPath cursor options
    ((res.1.map fun resp =>
        { resp with files := resp.files.map (List.map fun f =>
            { f with fullPath := Join r.backendName f.fullPath }) },
      res.2),
      [.listFiles r.backendName r.backendSpecificPath cursor options])

/-- `service.ListFolders`: resolve, delegate, rewrite `FullPath` of every
returned folder when the slice is non-nil. -/
def service.ListFolders (b : service) (path : GoStr) (options : ListOptions) :
    (Option (List FileMetadata) × Option Err) × List BackendCall :=
  match getBackend b.dummyBackend b.backendByName path with
  | .error err => ((none, some err), [])
  | .ok r =>
    let res := r.backend.listFolders r.backendSpecificPath options
    ((res.1.map (List.map fun f =>
        { f with fullPath := Join r.backendName f.fullPath }), res.2),
      [.listFolders r.backendName r.backendSpecificPath options])

/-- `service.CreateFolder`: resolve and delegate. -/
def service.CreateFolder (b : service) (path : GoStr) :
    Option Err × List BackendCall :=
  match getBackend b.dummyBackend b.backendByName path with
  | .error err => (some err, [])
  | .ok r => (r.backend.createFolder r.backendSpecificPath,
      [.createFolder r.backendName r.backendSpecificPath])

/-- `service.DeleteFolder`: resolve and delegate. -/
def service.DeleteFolder (b : service) (path : GoStr) :
    Option Err × List BackendCall :=
  match getBackend b.dummyBackend b.backendByName path with
  | .error err => (some err, [])
  | .ok r => (r.backend.deleteFolder r.backendSpecificPath,
      [.deleteFolder r.backendName r.backendSpecificPath])

/-- `service.close`: `lastError = backend.close()` for every registry entry
in iteration order, then return `lastError`.  The second component records
which backends' `close` was invoked, in order. -/
def service.close (b : service) : Option Err × List GoStr :=
  b.backendByName.foldl (fun acc e => (e.2.close, acc.2 ++ [e.1])) (none, [])

/-- A backend all of whose operations succeed with empty results; used as a
concrete spy in witnesses. -/
def noopBackend : Backend where
  get := fun _ => (none, none)
  delete := fun _ => none
  upsert := fun _ => none
  listFiles := fun _ _ _ => (none, none)
  listFolders := fun _ _ => (none, none)
  createFolder := fun _ => none
  deleteFolder := fun _ => none
  close := none

deriving instance DecidableEq for Except

/-! ### Helper lemmas about the string model -/

lemma splitOn_cons_self (c : Char) (xs : GoStr) :
    (c :: xs).splitOn c = [] :: xs.splitOn c := by
  simp [List.splitOn, List.splitOnP_cons]

lemma splitOn_cons_ne {c a : Char} (xs : GoStr) (h : a ≠ c) :
    (a :: xs).splitOn c = (xs.splitOn c).modifyHead (List.cons a) := by
  simp [List.splitOn, List.splitOnP_cons, h]

lemma splitOn_append {xs : GoStr} (ys : GoStr) (h : '/' ∉ xs) :
    (xs ++ '/' :: ys).splitOn '/' = xs :: ys.splitOn '/' := by
  apply List.splitOnP_first
  · intro x hx
    simp only [beq_iff_eq]
    exact fun hh => h (hh ▸ hx)
  · simp

lemma splitOn_eq_single {xs : GoStr} (h : '/' ∉ xs) : xs.splitOn '/' = [xs] := by
  apply List.splitOnP_eq_single
  intro x hx
  simp only [beq_iff_eq]
  exact fun hh => h (hh ▸ hx)

lemma intercalate_splitOn_self (xs : GoStr) :
    List.intercalate Delimiter (xs.splitOn '/') = xs := by
  simpa [Delimiter] using List.intercalate_splitOn xs '/'

lemma splitOn_ne_nil (xs : GoStr) : xs.splitOn '/' ≠ [] :=
  List.splitOnP_ne_nil _ xs

lemma intercalate_cons {s x : GoStr} {l : List GoStr} (h : l ≠ []) :
    List.intercalate s (x :: l) = x ++ s ++ List.intercalate s l := by
  obtain ⟨y, t, rfl⟩ := List.exists_cons_of_ne_nil h
  simp [List.intercalate, List.intersperse]

lemma not_mem_of_mem_splitOn {xs s : GoStr} (h : s ∈ xs.splitOn '/') :
    '/' ∉ s := by
  induction xs generalizing s with
  | nil =>
    simp only [List.splitOn_nil, List.mem_singleton] at h
    simp [h]
  | cons a xs ih =>
    by_cases ha : a = '/'
    · subst ha
      rw [splitOn_cons_self] at h
      rcases List.mem_cons.mp h with rfl | hmem
      · simp
      · exact ih hmem
    · rw [splitOn_cons_ne xs ha] at h
      obtain ⟨h0, t, ht⟩ := List.exists_cons_of_ne_nil (splitOn_ne_nil xs)
      rw [ht] at h
      rcases List.mem_cons.mp h with rfl | hmem
      · intro hc
        rcases List.mem_cons.mp hc with hc | hc
        · exact ha hc.symm
        · exact ih (ht ▸ List.mem_cons_self h0 t) hc
      · exact ih (ht ▸ List.mem_cons.mpr (Or.inr hmem))

lemma exists_first_split {l : GoStr} (h : '/' ∈ l) :
    ∃ r1 r2, l = r1 ++ '/' :: r2 ∧ '/' ∉ r1 := by
  induction l with
  | nil => cases h
  | cons a l ih =>
    by_cases ha : a = '/'
    · exact ⟨[], l, by simp [ha], by simp⟩
    · have h' : '/' ∈ l := by
        rcases List.mem_cons.mp h with hc | hc
        · exact absurd hc.symm ha
        · exact hc
      obtain ⟨r1, r2, he, hn⟩ := ih h'
      refine ⟨a :: r1, r2, by simp [he], ?_⟩
      intro hc
      rcases List.mem_cons.mp hc with hc | hc
      · exact ha hc.symm
      · exact hn hc

lemma splitOn_two_of_mem {p : GoStr} (h : '/' ∈ p) :
    ∃ x y t, p.splitOn '/' = x :: y :: t := by
  obtain ⟨r1, r2, rfl, hn⟩ := exists_first_split h
  obtain ⟨y, t, ht⟩ := List.exists_cons_of_ne_nil (splitOn_ne_nil r2)
  exact ⟨r1, y, t, by rw [splitOn_append r2 hn, ht]⟩

lemma trimPrefix_cons (q : GoStr) : trimPrefix ('/' :: q) Delimiter = q := by
  simp [ trimPrefix, Delimiter, List.isPrefixOf]

lemma trimPrefix_of_noDelim {n : GoStr} (h : '/' ∉ n) :
    trimPrefix n Delimiter = n := by
  cases n with
  | nil => simp [ trimPrefix, Delimiter, List.isPrefixOf]
  | cons a t =>
    have ha : ('/' : Char) ≠ a := fun hc => h (hc ▸ List.mem_cons_self a t)
    simp [ trimPrefix, Delimiter, List.isPrefixOf, ha]

/-! ### Computation lemmas for `removeBackendNamePrefix` -/

lemma rbnp_root (m : GoStr) (hm : '/' ∉ m) (hm1 : m ≠ []) :
    removeBackendNamePrefix ('/' :: m) = Delimiter := by
  unfold removeBackendNamePrefix
  rw [trimPrefix_cons]
  have h1 : ¬(m = Delimiter ∨ m = []) := by
    rintro (rfl | rfl)
    · exact hm (List.mem_singleton.mpr rfl)
    · exact hm1 rfl
  rw [if_neg h1, if_pos hm]

lemma rbnp_root_slash (m : GoStr) (hm : '/' ∉ m) (hm1 : m ≠ []) :
    removeBackendNamePrefix ('/' :: (m ++ ['/'])) = Delimiter := by
  unfold removeBackendNamePrefix
  rw [trimPrefix_cons]
  have h1 : ¬(m ++ ['/'] = Delimiter ∨ m ++ ['/'] = []) := by
    rintro (he | he)
    · rcases List.append_eq_cons_iff.mp he with ⟨rfl, _⟩ | ⟨_, _, hc⟩
      · exact hm1 rfl
      · simp at hc
    · simp at he
  have h2 : ¬ ('/' ∉ m ++ ['/']) := by simp
  have h3 : (m ++ ['/']).splitOn '/' = [m, []] := by
    simpa using splitOn_append ([] : GoStr) hm
  rw [if_neg h1, if_neg h2]
  simp only [h3]
  rw [if_pos (by simp)]

lemma rbnp_delimiter : removeBackendNamePrefix Delimiter = Delimiter := by
  unfold removeBackendNamePrefix
  have : trimPrefix Delimiter Delimiter = [] := by
    simp [ trimPrefix, Delimiter, List.isPrefixOf]
  rw [this, if_pos (Or.inr rfl)]

lemma rbnp_deep {m r : GoStr} (hm : '/' ∉ m) (hm1 : m ≠ []) (hr : r ≠ []) :
    removeBackendNamePrefix ('/' :: (m ++ '/' :: r)) = '/' :: r := by
  unfold removeBackendNamePrefix
  rw [trimPrefix_cons]
  have h1 : ¬(m ++ '/' :: r = Delimiter ∨ m ++ '/' :: r = []) := by
    rintro (he | he)
    · rcases List.append_eq_cons_iff.mp he with ⟨rfl, _⟩ | ⟨_, _, hc⟩
      · exact hm1 rfl
      · simp at hc
    · simp at he
  have h2 : ¬ ('/' ∉ m ++ '/' :: r) := by simp
  have h3 : (m ++ '/' :: r).splitOn '/' = m :: r.splitOn '/' := splitOn_append r hm
  rw [if_neg h1, if_neg h2]
  simp only [h3]
  have h4 : ¬((m :: r.splitOn '/').length = 2 ∧ (m :: r.splitOn '/').getD 1 [] = []) := by
    rintro ⟨hlen, hval⟩
    obtain ⟨y, t, hy⟩ := List.exists_cons_of_ne_nil (splitOn_ne_nil r)
    rw [hy] at hlen hval
    simp at hlen hval
    have : List.intercalate Delimiter (r.splitOn '/') = r := intercalate_splitOn_self r
    rw [hy, hlen, hval] at this
    simp [List.intercalate, List.intersperse] at this
    exact hr this
  rw [if_neg h4]
  simp only [List.tail_cons]
  rw [intercalate_cons (splitOn_ne_nil r), intercalate_splitOn_self r]
  simp [Delimiter]

/-! ### Traversal segments survive the mount-name strip (for well-formed names) -/

lemma validatePath_of_dotdot {p : GoStr} (hp : hasDotDotSegment p) :
    validatePath p = some .invalidPath := by
  unfold validatePath
  split_ifs <;> rfl

lemma head_splitOn_pre {n : GoStr} (rest : GoStr) (hn : '/' ∉ n) :
    ∃ h t, (n ++ rest).splitOn '/' = h :: t ∧ n <+: h := by
  by_cases hr : '/' ∈ rest
  · obtain ⟨r1, r2, rfl, hn1⟩ := exists_first_split hr
    have hnr : '/' ∉ n ++ r1 := by
      intro hc
      rcases List.mem_append.mp hc with hc | hc
      exacts [hn hc, hn1 hc]
    refine ⟨n ++ r1, r2.splitOn '/', ?_, ⟨r1, rfl⟩⟩
    rw [← List.append_assoc]
    exact splitOn_append r2 hnr
  · have hnr : '/' ∉ n ++ rest := by
      intro hc
      rcases List.mem_append.mp hc with hc | hc
      exacts [hn hc, hr hc]
    exact ⟨n ++ rest, [], splitOn_eq_single hnr, ⟨rest, rfl⟩⟩

lemma prefix_of_dotdot {n : GoStr} (h : n <+: ['.', '.']) :
    n = [] ∨ n = ['.'] ∨ n = ['.', '.'] := by
  have hl : n.length ≤ 2 := by simpa using h.length_le
  have ht : n = List.take n.length ['.', '.'] := List.prefix_iff_eq_take.mp h
  have h2 : n.length = 0 ∨ n.length = 1 ∨ n.length = 2 := by omega
  rcases h2 with h2 | h2 | h2
  · rw [h2] at ht
    exact Or.inl (by simpa using ht)
  · rw [h2] at ht
    exact Or.inr (Or.inl (by simpa using ht))
  · rw [h2] at ht
    exact Or.inr (Or.inr (by simpa using ht))

lemma rbnp_main {q h0 : GoStr} {t : List GoStr}
    (hsp : q.splitOn '/' = h0 :: t) (ht1 : t ≠ []) (ht2 : t ≠ [[]]) :
    removeBackendNamePrefix ('/' :: q) = List.intercalate Delimiter ([] :: t) := by
  unfold removeBackendNamePrefix
  rw [trimPrefix_cons]
  have hq1 : ¬(q = Delimiter ∨ q = []) := by
    rintro (rfl | rfl)
    · rw [show ((Delimiter : GoStr).splitOn '/') = [[], []] from rfl] at hsp
      injection hsp with _ h2
      exact ht2 h2.symm
    · rw [List.splitOn_nil] at hsp
      injection hsp with _ h2
      exact ht1 h2.symm
  have hq2 : '/' ∈ q := by
    by_contra hq
    rw [splitOn_eq_single hq] at hsp
    injection hsp with _ h2
    exact ht1 h2.symm
  have hq3 : ¬((q.splitOn '/').length = 2 ∧ (q.splitOn '/').getD 1 [] = []) := by
    rw [hsp]
    rintro ⟨hlen, hval⟩
    rcases t with _ | ⟨t1, ts⟩
    · exact ht1 rfl
    · simp at hlen hval
      subst hlen hval
      exact ht2 rfl
  rw [if_neg hq1, if_neg (by simpa using hq2), if_neg hq3, hsp]
  rfl

lemma dotdot_intercalate {q h0 : GoStr} {t : List GoStr}
    (hsp : q.splitOn '/' = h0 :: t) (hdd : ['.', '.'] ∈ t) :
    hasDotDotSegment (List.intercalate Delimiter ([] :: t)) := by
  have helems : ∀ l ∈ ([] :: t : List GoStr), '/' ∉ l := by
    intro l hl
    rcases List.mem_cons.mp hl with rfl | hl
    · simp
    · exact not_mem_of_mem_splitOn (by rw [hsp]; exact List.mem_cons_of_mem h0 hl)
  have hsp2 : (List.intercalate Delimiter ([] :: t)).splitOn '/' = [] :: t := by
    simpa [Delimiter] using List.splitOn_intercalate ([] :: t) '/' helems (by simp)
  show ['.', '.'] ∈ _
  rw [hsp2]
  exact List.mem_cons_of_mem [] hdd

lemma strip_keeps_dotdot {n path : GoStr} (hn : '/' ∉ n) (hn1 : n ≠ [])
    (hn2 : n ≠ ['.']) (hn3 : n ≠ ['.', '.'])
    (hm : mountMatches n path = true) (hp : hasDotDotSegment path) :
    hasDotDotSegment ( removeBackendNamePrefix path) := by
  have hm' : (Delimiter ++ n).isPrefixOf path = true ∨ n = path := by
    simpa [mountMatches] using hm
  rcases hm' with hpre | rfl
  · have hpre' : ('/' :: n) <+: path := by
      simpa [Delimiter] using List.isPrefixOf_iff_prefix.mp hpre
    obtain ⟨rest, rfl⟩ := hpre'
    have hp' : ['.', '.'] ∈ (n ++ rest).splitOn '/' := by
      have h2 : ['.', '.'] ∈ (('/' :: n) ++ rest).splitOn '/' := hp
      rw [List.cons_append, splitOn_cons_self] at h2
      rcases List.mem_cons.mp h2 with hc | hc
      · cases hc
      · exact hc
    obtain ⟨h0, t, hsp, hpre0⟩ := head_splitOn_pre rest hn
    have hdd : ['.', '.'] ∈ t := by
      rw [hsp] at hp'
      rcases List.mem_cons.mp hp' with rfl | hc
      · rcases prefix_of_dotdot hpre0 with hc | hc | hc
        exacts [absurd hc hn1, absurd hc hn2, absurd hc hn3]
      · exact hc
    have ht1 : t ≠ [] := fun hc => by simp [hc] at hdd
    have ht2 : t ≠ [[]] := fun hc => by simp [hc] at hdd
    rw [show (('/' :: n) ++ rest : GoStr) = '/' :: (n ++ rest) from List.cons_append '/' n rest,
      rbnp_main hsp ht1 ht2]
    exact dotdot_intercalate hsp hdd
  · have hp2 : ['.', '.'] ∈ n.splitOn '/' := hp
    rw [splitOn_eq_single hn] at hp2
    exact absurd (List.mem_singleton.mp hp2).symm hn3

/-! ### Resolution lemmas -/

lemma getBackend_dotdot {β : Type} (dummyBackend : β)
    (backendByName : List (GoStr × β)) (path : GoStr)
    (hreg : ∀ e ∈ backendByName, '/' ∉ e.1 ∧ e.1 ≠ [] ∧ e.1 ≠ ['.'] ∧ e.1 ≠ ['.', '.'])
    (hp : hasDotDotSegment path) :
    getBackend dummyBackend backendByName path = .error .invalidPath := by
  unfold getBackend
  cases hfind : backendByName.find? (fun e => mountMatches e.1 path) with
  | none =>
    simp only [validatePath_of_dotdot hp]
  | some e =>
    obtain ⟨name, bk⟩ := e
    have hmem := List.mem_of_find?_eq_some hfind
    have hmatch : mountMatches name path = true := by
      simpa using List.find?_some hfind
    obtain ⟨hn, hn1, hn2, hn3⟩ := hreg _ hmem
    simp only [validatePath_of_dotdot (strip_keeps_dotdot hn hn1 hn2 hn3 hmatch hp)]

lemma getBackend_ok_cases {β : Type} {d : β} {reg : List (GoStr × β)}
    {path : GoStr} {r : Resolved β} (h : getBackend d reg path = .ok r) :
    (∃ e, reg.find? (fun e => mountMatches e.1 path) = some e ∧
        r = ⟨e.2, removeBackendNamePrefix path, e.1⟩ ∧
        validatePath ( removeBackendNamePrefix path) = none) ∨
      (reg.find? (fun e => mountMatches e.1 path) = none ∧
        r = ⟨d, path, []⟩ ∧ validatePath path = none) := by
  unfold getBackend at h
  cases hfind : reg.find? (fun e => mountMatches e.1 path) with
  | none =>
    rw [hfind] at h
    cases hval : validatePath path with
    | none =>
      simp only [hval, Except.ok.injEq] at h
      exact Or.inr ⟨rfl, h.symm, rfl⟩
    | some err =>
      simp only [hval] at h
      exact Except.noConfusion h
  | some e =>
    obtain ⟨name, bk⟩ := e
    rw [hfind] at h
    cases hval : validatePath ( removeBackendNamePrefix path) with
    | none =>
      simp only [hval, Except.ok.injEq] at h
      exact Or.inl ⟨(name, bk), rfl, h.symm, rfl⟩
    | some err =>
      simp only [hval] at h
      exact Except.noConfusion h

lemma getBackend_ok_matched {β : Type} {d : β} {reg : List (GoStr × β)}
    {path : GoStr} {r : Resolved β} (h : getBackend d reg path = .ok r)
    (hname : r.backendName ≠ []) :
    r.backendSpecificPath = removeBackendNamePrefix path := by
  rcases getBackend_ok_cases h with ⟨e, _, rfl, _⟩ | ⟨_, rfl, _⟩
  · rfl
  · exact absurd rfl hname

lemma delimiter_prefix_rbnp (path : GoStr) :
    Delimiter <+: removeBackendNamePrefix path := by
  simp only [ removeBackendNamePrefix]
  split_ifs with h1 h2 h3
  · exact List.prefix_refl _
  · exact List.prefix_refl _
  · obtain ⟨x, y, t, hsp⟩ := splitOn_two_of_mem h2
    rw [hsp]
    simp only [List.tail_cons]
    rw [intercalate_cons (by simp : (y :: t : List GoStr) ≠ [])]
    simp only [List.nil_append]
    exact List.prefix_append _ _
  · exact List.prefix_refl _

/-! ### Fold characterization of `close`, `Join` on well-formed names,
and order-independence of `find?` under a unique match -/

lemma close_foldl (l : List (GoStr × Backend)) (acc : Option Err × List GoStr) :
    l.foldl (fun acc e => (e.2.close, acc.2 ++ [e.1])) acc =
      (l.getLast?.elim acc.1 fun e => e.2.close, acc.2 ++ l.map Prod.fst) := by
  induction l generalizing acc with
  | nil => simp
  | cons x xs ih =>
    rw [List.foldl_cons, ih]
    cases xs with
    | nil => simp
    | cons y ys =>
      obtain ⟨a, ha⟩ : ∃ a, (y :: ys).getLast? = some a := by
        cases h : (y :: ys).getLast? with
        | none => exact absurd (List.getLast?_eq_none_iff.mp h) (by simp)
        | some a => exact ⟨a, rfl⟩
      simp [List.getLast?_cons_cons, ha]

lemma Join_cons_delim {m : GoStr} (r : GoStr) (hm : '/' ∉ m) (hm1 : m ≠ []) :
    Join m ('/' :: r) = '/' :: (m ++ '/' :: r) := by
  simp only [Join]
  have hsuf : ¬((Delimiter : GoStr) <:+ Delimiter ++ m) := by
    rintro ⟨s, hs⟩
    have h1 : (s ++ Delimiter).getLast? = some '/' := List.getLast?_concat s
    rw [hs] at h1
    have h2 : (Delimiter ++ m).getLast? = m.getLast? := by
      rw [List.getLast?_append]
      cases hm2 : m.getLast? with
      | none => exact absurd (List.getLast?_eq_none_iff.mp hm2) hm1
      | some a => simp
    rw [h2] at h1
    exact hm (List.mem_of_getLast?_eq_some h1)
  have hcond : ((Delimiter : GoStr).isSuffixOf (Delimiter ++ m) &&
      (Delimiter : GoStr).isPrefixOf ('/' :: r)) = false := by
    simp only [Bool.and_eq_false_iff]
    exact Or.inl (Bool.eq_false_iff.mpr (by simpa using hsuf))
  rw [hcond]
  simp [Delimiter]

lemma find?_eq_of_perm_of_unique {β : Type} {reg1 reg2 : List (GoStr × β)}
    {path : GoStr} (hperm : reg1.Perm reg2)
    (huniq : ∀ e1 ∈ reg1, ∀ e2 ∈ reg1, mountMatches e1.1 path = true →
      mountMatches e2.1 path = true → e1 = e2) :
    reg1.find? (fun e => mountMatches e.1 path) =
      reg2.find? (fun e => mountMatches e.1 path) := by
  cases h1 : reg1.find? (fun e => mountMatches e.1 path) with
  | none =>
    cases h2 : reg2.find? (fun e => mountMatches e.1 path) with
    | none => rfl
    | some e2 =>
      have hm2 := List.find?_some h2
      have hmem2 : e2 ∈ reg1 := hperm.mem_iff.mpr (List.mem_of_find?_eq_some h2)
      exact absurd hm2 (by simpa using List.find?_eq_none.mp h1 e2 hmem2)
  | some e1 =>
    cases h2 : reg2.find? (fun e => mountMatches e.1 path) with
    | none =>
      have hm1 := List.find?_some h1
      have hmem1 : e1 ∈ reg2 := hperm.mem_iff.mp (List.mem_of_find?_eq_some h1)
      exact absurd hm1 (by simpa using List.find?_eq_none.mp h2 e1 hmem1)
    | some e2 =>
      have hm1 := List.find?_some h1
      have hm2 := List.find?_some h2
      have hmem1 : e1 ∈ reg1 := List.mem_of_find?_eq_some h1
      have hmem2 : e2 ∈ reg1 := hperm.mem_iff.mpr (List.mem_of_find?_eq_some h2)
      rw [huniq e1 hmem1 e2 hmem2 (by simpa using hm1) (by simpa using hm2)]

/-! ### Concrete fixtures used by witnesses and counterexamples -/

/-- A backend whose `close` fails. -/
def failingCloseBackend : Backend :=
  { noopBackend with close := some (.backendErr (gs "close failed")) }

/-- A backend whose `listFiles` returns two files with backend-local full
paths plus a pagination marker. -/
def listingBackend : Backend :=
  { noopBackend with
    listFiles := fun _ _ _ =>
      (some { files := some [⟨gs "/x.json", gs "cx"⟩, ⟨gs "/y.json", gs "cy"⟩],
              pagingData := gs "PAGE" }, none) }

/-- A service with one well-formed mount `a`. -/
def sOne : service := ⟨noopBackend, [(gs "a", noopBackend)]⟩

/-- A service whose registry holds the pathological mount name `.` (a name
the spec's data model does not exclude: it contains no delimiter). -/
def sDot : service := ⟨noopBackend, [(gs ".", noopBackend)]⟩

/-- A service with mount `mountA` backed by `listingBackend`. -/
def sList : service := ⟨noopBackend, [(gs "mountA", listingBackend)]⟩

/-- A two-backend service: the first backend's `close` fails, the second
one's succeeds. -/
def sClose : service :=
  ⟨noopBackend, [(gs "a", failingCloseBackend), (gs "b", noopBackend)]⟩

/-! ### Claims -/

/-- C1 counterexample: with a registered mount named `.` — which satisfies
the spec's stated mount-name invariant of not containing the delimiter —
the path `/..`, a single `..` traversal segment, resolves *successfully*:
stripping the first segment turns it into the bare delimiter, which
validates, so `getBackend` returns the mounted backend and `Get` invokes
it.  The claim that every `..` path yields `InvalidPath` regardless of
mount matching is therefore false on the code. -/
theorem C1_counterexample :
    hasDotDotSegment (gs "/..") ∧
    getBackend (0 : Nat) [(gs ".", 1)] (gs "/..") = .ok ⟨1, gs "/", gs "."⟩ ∧
    (sDot.Get (gs "/..")).2 = [.get (gs ".") (gs "/")] :=
  ⟨by decide, by decide, rfl⟩

/-- C1 (amended): provided every registered mount name contains no
delimiter and is none of the degenerate names `""`, `"."`, `".."`, every
path containing a `..` traversal segment makes `getBackend` return
`InvalidPath`, and every public operation on such a path returns that
error with an empty invocation trace — no backend is ever invoked. -/
theorem C1_amended_dotdot_short_circuit (b : service) (path : GoStr)
    (hreg : ∀ e ∈ b.backendByName,
      '/' ∉ e.1 ∧ e.1 ≠ [] ∧ e.1 ≠ ['.'] ∧ e.1 ≠ ['.', '.'])
    (hp : hasDotDotSegment path) :
    getBackend b.dummyBackend b.backendByName path = .error .invalidPath ∧
    b.Get path = ((none, some .invalidPath), []) ∧
    b.Delete path = (some .invalidPath, []) ∧
    (∀ file : UpsertFileCommand, file.path = path →
      b.Upsert file = (some .invalidPath, file, [])) ∧
    (∀ cursor options,
      b.ListFiles path cursor options = ((none, some .invalidPath), [])) ∧
    (∀ options, b.ListFolders path options = ((none, some .invalidPath), [])) ∧
    b.CreateFolder path = (some .invalidPath, []) ∧
    b.DeleteFolder path = (some .invalidPath, []) := by
  have hgb := getBackend_dotdot b.dummyBackend b.backendByName path hreg hp
  refine ⟨hgb, ?_, ?_, ?_, ?_, ?_, ?_, ?_⟩
  · simp [service.Get, hgb]
  · simp [service.Delete, hgb]
  · intro file hf
    simp [service.Upsert, hf, hgb]
  · intro cursor options
    simp [service.ListFiles, hgb]
  · intro options
    simp [service.ListFolders, hgb]
  · simp [service.CreateFolder, hgb]
  · simp [service.DeleteFolder, hgb]

/-- C1 witness: the amended theorem applied to a concrete service with the
well-formed mount `a` and the traversal path `/a/../f`. -/
theorem C1_witness :
    hasDotDotSegment (gs "/a/../f") ∧
    sOne.Get (gs "/a/../f") = ((none, some .invalidPath), []) :=
  ⟨by decide,
    (C1_amended_dotdot_short_circuit sOne (gs "/a/../f") (by decide) (by decide)).2.1⟩

/-- C2: for a valid unified path `/m<rest>` lying under mount `m` (the
remainder is empty or starts with the delimiter), joining the mount name
back onto the stripped backend-local path reconstructs the path exactly,
except when the path strips to the mount root. -/
theorem C2_roundtrip (m r : GoStr) (hm : '/' ∉ m) (hm1 : m ≠ [])
    (hr : r = [] ∨ ∃ r2, r = '/' :: r2)
    (hv : validatePath ('/' :: (m ++ r)) = none)
    (hroot : removeBackendNamePrefix ('/' :: (m ++ r)) ≠ Delimiter) :
    Join m ( removeBackendNamePrefix ('/' :: (m ++ r))) = '/' :: (m ++ r) := by
  rcases hr with rfl | ⟨r2, rfl⟩
  · rw [List.append_nil] at hroot ⊢
    exact absurd (rbnp_root m hm hm1) hroot
  · by_cases h2 : r2 = []
    · subst h2
      exact absurd (rbnp_root_slash m hm hm1) hroot
    · rw [rbnp_deep hm hm1 h2]
      exact Join_cons_delim r2 hm hm1

/-- C2 witness: the round trip at mount `mountA` and path `/mountA/x`. -/
theorem C2_witness :
    Join (gs "mountA") ( removeBackendNamePrefix ('/' :: (gs "mountA" ++ gs "/x"))) =
      '/' :: (gs "mountA" ++ gs "/x") :=
  C2_roundtrip (gs "mountA") (gs "/x") (by decide) (by decide)
    (Or.inr ⟨gs "x", by decide⟩) (by decide) (by decide)

/-- C3: when no registry entry matches a (valid) path, `getBackend`
succeeds — no dispatch error — returning the shared dummy backend, the
empty mount name and the original path unchanged. -/
theorem C3_no_match_dummy (b : service) (path : GoStr)
    (hnm : ∀ e ∈ b.backendByName, mountMatches e.1 path = false)
    (hv : validatePath path = none) :
    getBackend b.dummyBackend b.backendByName path =
      .ok ⟨b.dummyBackend, path, []⟩ := by
  have hfind : b.backendByName.find? (fun e => mountMatches e.1 path) = none :=
    List.find?_eq_none.mpr (fun e he => by simp [hnm e he])
  unfold getBackend
  simp only [hfind, hv]

/-- C3 witness: `/unknown-mount/x` against the registry holding only mount
`a` resolves to the dummy backend with mount name `""` and the path
unchanged. -/
theorem C3_witness :
    getBackend sOne.dummyBackend sOne.backendByName (gs "/unknown-mount/x") =
      .ok ⟨sOne.dummyBackend, gs "/unknown-mount/x", []⟩ :=
  C3_no_match_dummy sOne (gs "/unknown-mount/x") (by decide) (by decide)

/-- C4 counterexample: with iteration order `[failing, succeeding]`,
`close` attempts both backends (both names appear in the trace) but
returns `nil`, not the failing backend's error: the loop body
`lastError = backend.close()` overwrites unconditionally, so the claim
that `close` returns the last *non-nil* error is false on the code. -/
theorem C4_counterexample :
    failingCloseBackend.close = some (.backendErr (gs "close failed")) ∧
    sClose.close = (none, [gs "a", gs "b"]) :=
  ⟨rfl, rfl⟩

/-- C4 (amended): `close` invokes `close` on every registered backend in
iteration order, and returns the result of the **last** backend's close —
which is `nil` whenever the last close succeeds, even if an earlier close
failed. -/
theorem C4_amended_close_returns_last (b : service) :
    b.close = (b.backendByName.getLast?.elim none fun e => e.2.close,
      b.backendByName.map Prod.fst) := by
  unfold service.close
  rw [close_foldl]
  simp

/-- C5: for every well-formed mount name `m`, the degenerate paths `/m`
and `/m/` and the bare delimiter all strip to exactly the root delimiter —
never the empty string. -/
theorem C5_degenerate_root (m : GoStr) (hm : '/' ∉ m) (hm1 : m ≠ []) :
    removeBackendNamePrefix ('/' :: m) = Delimiter ∧
    removeBackendNamePrefix ('/' :: (m ++ ['/'])) = Delimiter ∧
    removeBackendNamePrefix Delimiter = Delimiter ∧
    Delimiter ≠ [] :=
  ⟨rbnp_root m hm hm1, rbnp_root_slash m hm hm1, rbnp_delimiter, by decide⟩

/-- C5 witness: the degenerate normalization at the concrete mount name
`mountA`. -/
theorem C5_witness :
    removeBackendNamePrefix ('/' :: gs "mountA") = Delimiter ∧
    removeBackendNamePrefix ('/' :: (gs "mountA" ++ ['/'])) = Delimiter :=
  ⟨(C5_degenerate_root (gs "mountA") (by decide) (by decide)).1,
    (C5_degenerate_root (gs "mountA") (by decide) (by decide)).2.1⟩

/-- C6: when an `UpsertFileCommand` resolves to a registered mount,
`Upsert` rewrites the command's `Path` field to the backend-local path
exactly once before delegating: the backend's `upsert` receives the
command with `Path` equal to exactly the mount-stripped value (all other
fields untouched), and the caller-visible command ends in that same
state. -/
theorem C6_upsert_backend_local (b : service) (file : UpsertFileCommand)
    (r : Resolved Backend)
    (hr : getBackend b.dummyBackend b.backendByName file.path = .ok r)
    (hmatch : (b.backendByName.find? fun e => mountMatches e.1 file.path).isSome) :
    b.Upsert file = (r.backend.upsert { file with path := r.backendSpecificPath },
      { file with path := r.backendSpecificPath },
      [.upsert r.backendName { file with path := r.backendSpecificPath }]) ∧
    r.backendSpecificPath = removeBackendNamePrefix file.path := by
  constructor
  · simp [service.Upsert, hr]
  · rcases getBackend_ok_cases hr with ⟨e, _, rfl, _⟩ | ⟨hn, _, _⟩
    · rfl
    · rw [hn] at hmatch
      exact absurd hmatch (by simp)

/-- C6 witness: upserting `/a/f.json` on the service with mount `a` hands
the backend the command with path `/f.json`. -/
theorem C6_witness :
    sOne.Upsert ⟨gs "/a/f.json", gs "data"⟩ =
      (none, ⟨gs "/f.json", gs "data"⟩,
        [.upsert (gs "a") ⟨gs "/f.json", gs "data"⟩]) := by
  have h := C6_upsert_backend_local sOne ⟨gs "/a/f.json", gs "data"⟩
    ⟨noopBackend, gs "/f.json", gs "a"⟩ rfl (by decide)
  exact h.1

/-- C7: `ListFiles` hands the backend the cursor and options verbatim
(observable in the invocation trace) and rewrites exactly the `FullPath`
of each returned file to `Join(mountName, localFullPath)` — an
elementwise `map` that preserves the backend's file order — while the
backend's pagination state and error are returned to the caller
verbatim. -/
theorem C7_listfiles_rewrite (b : service) (path : GoStr)
    (cursor : Option Paging) (options : ListOptions) (r : Resolved Backend)
    (hr : getBackend b.dummyBackend b.backendByName path = .ok r) :
    (b.ListFiles path cursor options).2 =
      [.listFiles r.backendName r.backendSpecificPath cursor options] ∧
    ∀ resp err,
      r.backend.listFiles r.backendSpecificPath cursor options = (resp, err) →
      (b.ListFiles path cursor options).1 =
        (resp.map fun rp =>
          { files := rp.files.map (List.map fun f =>
              { f with fullPath := Join r.backendName f.fullPath }),
            pagingData := rp.pagingData }, err) := by
  constructor
  · simp [service.ListFiles, hr]
  · intro resp err hres
    simp [service.ListFiles, hr, hres]

/-- C7 witness: listing `/mountA/dir` over a backend that returns
`/x.json`, `/y.json` yields `/mountA/x.json`, `/mountA/y.json` in that
order, with the cursor in the trace and the pagination marker intact. -/
theorem C7_witness :
    (sList.ListFiles (gs "/mountA/dir") (some (gs "CUR")) (gs "opts")).2 =
      [.listFiles (gs "mountA") (gs "/dir") (some (gs "CUR")) (gs "opts")] ∧
    (sList.ListFiles (gs "/mountA/dir") (some (gs "CUR")) (gs "opts")).1 =
      (some { files := some [⟨gs "/mountA/x.json", gs "cx"⟩,
                ⟨gs "/mountA/y.json", gs "cy"⟩],
              pagingData := gs "PAGE" }, none) := by
  have h := C7_listfiles_rewrite sList (gs "/mountA/dir") (some (gs "CUR"))
    (gs "opts") ⟨listingBackend, gs "/dir", gs "mountA"⟩ rfl
  refine ⟨h.1, ?_⟩
  have h2 := h.2 (some { files := some [⟨gs "/x.json", gs "cx"⟩,
      ⟨gs "/y.json", gs "cy"⟩], pagingData := gs "PAGE" }) none rfl
  rw [h2]
  decide

/-- C8 counterexample: the same two-mount registry in two iteration orders
(the lists are permutations of one another; Go fixes no map iteration
order) resolves `/db2/x` — which prefix-matches both mount names `db` and
`db2` — to *different* backends, mount names included.  The claim that a
prefix-colliding path always resolves to the same mount is therefore
false on the code. -/
theorem C8_counterexample :
    [(gs "db", (1 : Nat)), (gs "db2", 2)].Perm [(gs "db2", 2), (gs "db", 1)] ∧
    getBackend (0 : Nat) [(gs "db", 1), (gs "db2", 2)] (gs "/db2/x") =
      .ok ⟨1, gs "/x", gs "db"⟩ ∧
    getBackend (0 : Nat) [(gs "db2", 2), (gs "db", 1)] (gs "/db2/x") =
      .ok ⟨2, gs "/x", gs "db2"⟩ ∧
    getBackend (0 : Nat) [(gs "db", 1), (gs "db2", 2)] (gs "/db2/x") ≠
      getBackend (0 : Nat) [(gs "db2", 2), (gs "db", 1)] (gs "/db2/x") :=
  ⟨by decide, by decide, by decide, by decide⟩

/-- C8 (amended): resolution is a pure function of the iteration order and
the inputs (two runs over the same order trivially agree), and whenever at
most one registry entry matches the path, the resolved backend, local path
and mount name are independent of the iteration order; only paths matching
two different mount names may resolve differently across orders. -/
theorem C8_unique_match_deterministic {β : Type} (d : β)
    (reg1 reg2 : List (GoStr × β)) (path : GoStr) (hperm : reg1.Perm reg2)
    (huniq : ∀ e1 ∈ reg1, ∀ e2 ∈ reg1, mountMatches e1.1 path = true →
      mountMatches e2.1 path = true → e1 = e2) :
    getBackend d reg1 path = getBackend d reg2 path := by
  unfold getBackend
  rw [find?_eq_of_perm_of_unique hperm huniq]

/-- C8 witness: a path matching only mount `a` resolves identically under
both iteration orders of a two-mount registry. -/
theorem C8_witness :
    getBackend (0 : Nat) [(gs "a", 1), (gs "b", 2)] (gs "/a/x") =
      getBackend (0 : Nat) [(gs "b", 2), (gs "a", 1)] (gs "/a/x") :=
  C8_unique_match_deterministic 0 [(gs "a", 1), (gs "b", 2)]
    [(gs "b", 2), (gs "a", 1)] (gs "/a/x") (by decide) (by decide)

/-- C9: `Upsert` is atomic on resolution failure: when `getBackend` fails
on the command's path, the error is returned, the caller-visible command
still carries its original `Path`, and no backend is invoked. -/
theorem C9_upsert_atomic_on_error (b : service) (file : UpsertFileCommand)
    (e : Err)
    (he : getBackend b.dummyBackend b.backendByName file.path = .error e) :
    b.Upsert file = (some e, file, []) := by
  simp [service.Upsert, he]

/-- C9 witness: upserting a `..` path returns `InvalidPath` with the
command unchanged and an empty invocation trace. -/
theorem C9_witness :
    sOne.Upsert ⟨gs "/a/../f", gs "data"⟩ =
      (some .invalidPath, ⟨gs "/a/../f", gs "data"⟩, []) :=
  C9_upsert_atomic_on_error sOne ⟨gs "/a/../f", gs "data"⟩ .invalidPath rfl

lemma resolved_local_prefixed {b : service} {path : GoStr} {r : Resolved Backend}
    (hr : getBackend b.dummyBackend b.backendByName path = .ok r)
    (hname : r.backendName ≠ []) :
    r.backendSpecificPath = removeBackendNamePrefix path ∧
      Delimiter <+: r.backendSpecificPath := by
  have h := getBackend_ok_matched hr hname
  exact ⟨h, h ▸ delimiter_prefix_rbnp path⟩

/-- C10: `removeBackendNamePrefix` always returns a delimiter-prefixed
string; consequently, whenever resolution matched a mount (non-empty
resolved mount name), the backend-local path is the stripped path and
begins with the delimiter — and every backend invocation performed by any
public operation on behalf of a matched mount carries a delimiter-prefixed
(hence non-empty) local path. -/
theorem C10_delimiter_prefixed_local_paths :
    (∀ path, Delimiter <+: removeBackendNamePrefix path) ∧
    (∀ (b : service) (path : GoStr) (r : Resolved Backend),
      getBackend b.dummyBackend b.backendByName path = .ok r →
      r.backendName ≠ [] →
      r.backendSpecificPath = removeBackendNamePrefix path ∧
        Delimiter <+: r.backendSpecificPath) ∧
    (∀ (b : service) (path : GoStr), ∀ c ∈ (b.Get path).2,
      c.mount ≠ [] → Delimiter <+: c.localPath) ∧
    (∀ (b : service) (path : GoStr), ∀ c ∈ (b.Delete path).2,
      c.mount ≠ [] → Delimiter <+: c.localPath) ∧
    (∀ (b : service) (file : UpsertFileCommand), ∀ c ∈ (b.Upsert file).2.2,
      c.mount ≠ [] → Delimiter <+: c.localPath) ∧
    (∀ (b : service) (path : GoStr) (cursor : Option Paging)
      (options : ListOptions), ∀ c ∈ (b.ListFiles path cursor options).2,
      c.mount ≠ [] → Delimiter <+: c.localPath) ∧
    (∀ (b : service) (path : GoStr) (options : ListOptions),
      ∀ c ∈ (b.ListFolders path options).2,
      c.mount ≠ [] → Delimiter <+: c.localPath) ∧
    (∀ (b : service) (path : GoStr), ∀ c ∈ (b.CreateFolder path).2,
      c.mount ≠ [] → Delimiter <+: c.localPath) ∧
    (∀ (b : service) (path : GoStr), ∀ c ∈ (b.DeleteFolder path).2,
      c.mount ≠ [] → Delimiter <+: c.localPath) := by
  refine ⟨delimiter_prefix_rbnp,
    fun b path r hr hn => resolved_local_prefixed hr hn,
    ?_, ?_, ?_, ?_, ?_, ?_, ?_⟩
  · intro b path c hc hm
    cases hgb : getBackend b.dummyBackend b.backendByName path with
    | error e => simp [service.Get, hgb] at hc
    | ok r =>
      simp [service.Get, hgb] at hc
      subst hc
      exact (resolved_local_prefixed hgb hm).2
  · intro b path c hc hm
    cases hgb : getBackend b.dummyBackend b.backendByName path with
    | error e => simp [service.Delete, hgb] at hc
    | ok r =>
      simp [service.Delete, hgb] at hc
      subst hc
      exact (resolved_local_prefixed hgb hm).2
  · intro b file c hc hm
    cases hgb : getBackend b.dummyBackend b.backendByName file.path with
    | error e => simp [service.Upsert, hgb] at hc
    | ok r =>
      simp [service.Upsert, hgb] at hc
      subst hc
      exact (resolved_local_prefixed hgb hm).2
  · intro b path cursor options c hc hm
    cases hgb : getBackend b.dummyBackend b.backendByName path with
    | error e => simp [service.ListFiles, hgb] at hc
    | ok r =>
      simp [service.ListFiles, hgb] at hc
      subst hc
      exact (resolved_local_prefixed hgb hm).2
  · intro b path options c hc hm
    cases hgb : getBackend b.dummyBackend b.backendByName path with
    | error e => simp [service.ListFolders, hgb] at hc
    | ok r =>
      simp [service.ListFolders, hgb] at hc
      subst hc
      exact (resolved_local_prefixed hgb hm).2
  · intro b path c hc hm
    cases hgb : getBackend b.dummyBackend b.backendByName path with
    | error e => simp [service.CreateFolder, hgb] at hc
    | ok r =>
      simp [service.CreateFolder, hgb] at hc
      subst hc
      exact (resolved_local_prefixed hgb hm).2
  · intro b path c hc hm
    cases hgb : getBackend b.dummyBackend b.backendByName path with
    | error e => simp [service.DeleteFolder, hgb] at hc
    | ok r =>
      simp [service.DeleteFolder, hgb] at hc
      subst hc
      exact (resolved_local_prefixed hgb hm).2

/-- C10 witness: the invariant and the per-operation consequence at a
concrete resolution (`/a/x` on the mount `a`, local path `/x`). -/
theorem C10_witness :
    Delimiter <+: removeBackendNamePrefix (gs "/a/x") ∧
    Delimiter <+: BackendCall.localPath (.get (gs "a") (gs "/x")) :=
  ⟨C10_delimiter_prefixed_local_paths.1 (gs "/a/x"),
    C10_delimiter_prefixed_local_paths.2.2.1 sOne (gs "/a/x")
      (.get (gs "a") (gs "/x")) (by decide) (by decide)⟩
